import Mathlib

/-!
Verification of the string-splitting transformer (SplitStringTransformer) and the
run orchestrator (JavaScriptObfuscatorInternal) of the obfuscator repository.

JS strings are modelled as lists of UTF-16 code units (natural numbers below 2^16
in practice; the bound is irrelevant to the claims).  The stringz library walks a
string by Unicode code points: a high surrogate immediately followed by a low
surrogate is one code point of two units, every other unit is one code point on
its own.  stringz is an external dependency whose behaviour the spec fixes in
exactly these terms, so it is embedded at that level here.

JS control flow that can throw or loop forever is embedded in the JSOutcome
monad: `ok` for a normal return, `thrown` for an exception, `diverged` for a
loop that never terminates (Math.ceil of a division by zero is Infinity, and a
loop bounded by Infinity never ends).
-/

namespace SplitString

/-- A JS string: the list of its UTF-16 code units. -/
abbrev JSString := List Nat

/-- A unit in the high-surrogate range D800..DBFF. -/
def isHighSurrogate (u : Nat) : Bool := decide (0xD800 ≤ u ∧ u ≤ 0xDBFF)

/-- A unit in the low-surrogate range DC00..DFFF. -/
def isLowSurrogate (u : Nat) : Bool := decide (0xDC00 ≤ u ∧ u ≤ 0xDFFF)

/-- Modelled from the spec: segmentation of a JS string into Unicode code points
as performed by the external stringz library (its toArray), which never splits a
surrogate pair: a high surrogate followed by a low surrogate is one code point
of two units; every other unit is one code point. -/
def toArray : JSString → List JSString
  | [] => []
  | u :: v :: rest =>
    if isHighSurrogate u && isLowSurrogate v then
      (u :: v :: []) :: toArray rest
    else
      (u :: []) :: toArray (v :: rest)
  | u :: [] => (u :: []) :: []

/-- Modelled from the spec: stringz.length, the number of Unicode code points of
a string. -/
def czLength (s : JSString) : Nat := (toArray s).length

/-- Modelled from the spec: stringz.substr, slicing by code points: the units of
code points `start` to `start + len - 1`. -/
def czSubstr (s : JSString) (start len : Nat) : JSString :=
  (((toArray s).drop start).take len).flatten

/-- Outcome of a JS computation: normal return, thrown exception, or an
infinite loop. -/
inductive JSOutcome (α : Type) where
  | ok (value : α)
  | thrown (message : String)
  | diverged
deriving DecidableEq

/-- Math.ceil (a / b) for natural numbers and b at least 1. -/
def ceilDiv (a b : Nat) : Nat := (a + b - 1) / b

/-- SplitStringTransformer.chunkString: chunksCount = Math.ceil(stringLength /
chunkSize) chunks, chunk i being substr(string, i * chunkSize, chunkSize).
In JS, a chunkSize of 0 with a positive stringLength gives chunksCount =
Infinity and the loop never terminates (diverged); with stringLength = 0 the
count is NaN and the loop body never runs. -/
def chunkString (string : JSString) (stringLength chunkSize : Nat) :
    JSOutcome (List JSString) :=
  if chunkSize = 0 then
    if stringLength = 0 then .ok [] else .diverged
  else
    .ok ((List.range (ceilDiv stringLength chunkSize)).map
      (fun chunkIndex => czSubstr string (chunkIndex * chunkSize) chunkSize))

/-- The value carried by an ESTree literal node, as far as this pass looks at
it: a string value, or any non-string literal value (number, boolean, null,
regexp), which the pass never splits. -/
inductive LiteralValue where
  | str (value : JSString)
  | nonString
deriving DecidableEq

/-- The node shapes this pass produces and inspects: literal nodes and binary
expression nodes (NodeFactory.literalNode / NodeFactory.binaryExpressionNode). -/
inductive ESNode where
  | literal (value : LiteralValue)
  | binaryExpression (op : String) (left right : ESNode)
deriving DecidableEq

/-- NodeGuards.isLiteralNode. -/
def isLiteralNode : ESNode → Bool
  | .literal _ => true
  | _ => false

/-- SplitStringTransformer.transformStringChunksToBinaryExpressionNode: shift
the first two chunks; throw if either is missing or empty (a JS falsy check on
a string is true for the empty string); build the two-chunk "+" node and extend
it by reduce, one chunk literal on the right per remaining chunk.
Array.prototype.shift removes the element from the array in place and the
array is shared with the caller, so the call mutates the given chunk array:
on a normal return it has lost its first two elements.  That mutable state is
passed explicitly here: alongside the built node the function returns the
content of the chunk array after the call. -/
def transformStringChunksToBinaryExpressionNode (chunks : List JSString) :
    JSOutcome (ESNode × List JSString) :=
  match chunks with
  | firstChunk :: secondChunk :: rest =>
    if firstChunk = [] ∨ secondChunk = [] then
      .thrown "First and second chunks values should not be empty"
    else
      .ok (rest.foldl
        (fun binaryExpressionNode chunk =>
          ESNode.binaryExpression "+" binaryExpressionNode
            (ESNode.literal (.str chunk)))
        (ESNode.binaryExpression "+"
          (ESNode.literal (.str firstChunk))
          (ESNode.literal (.str secondChunk))),
        rest)
  | _ => .thrown "First and second chunks values should not be empty"

/-- SplitStringTransformer.transformLiteralNodeByChunkLength: non-string
literals pass through with an empty chunk list; a chunk length at least the
code-point length of the value passes the literal through with an empty chunk
list; otherwise chunk the value and build the concatenation node.  The
reported chunk list is the stringChunks array as it stands after the builder
call: the builder has shifted the first two chunks out of the shared array,
so a successful split reports the produced chunk list minus its first two
elements. -/
def transformLiteralNodeByChunkLength (literalNode : ESNode) (chunkLength : Nat) :
    JSOutcome (ESNode × List JSString) :=
  match literalNode with
  | .literal (.str value) =>
    let valueLength := czLength value
    if valueLength ≤ chunkLength then
      .ok (.literal (.str value), [])
    else
      match chunkString value valueLength chunkLength with
      | .ok stringChunks =>
        match transformStringChunksToBinaryExpressionNode stringChunks with
        | .ok (node, stringChunksAfterCall) => .ok (node, stringChunksAfterCall)
        | .thrown m => .thrown m
        | .diverged => .diverged
      | .thrown m => .thrown m
      | .diverged => .diverged
  | other => .ok (other, [])

/-- SplitStringTransformer.maxStringLengthForSecondPass. -/
def maxStringLengthForSecondPass : Nat := 30000

/-- SplitStringTransformer.firstPassChunkLength. -/
def firstPassChunkLength : Nat := 1000

/-- The isLargeString computation of transformNode:
maxStringLengthForSecondPass / firstPassChunkLength <= stringChunksCount. -/
def isLargeString (stringChunksCount : Nat) : Bool :=
  decide (maxStringLengthForSecondPass / firstPassChunkLength ≤ stringChunksCount)

/-- The minSecondPathChunkLength computation of transformNode: for a large
string Math.floor(stringChunksCount / splitStringsChunkLength), otherwise the
configured splitStringsChunkLength directly.  The option
splitStringsChunkLength is at least 1 per the configuration contract, under
which JS floor division agrees with Nat division. -/
def minSecondPathChunkLength (stringChunksCount splitStringsChunkLength : Nat) : Nat :=
  if isLargeString stringChunksCount then
    stringChunksCount / splitStringsChunkLength
  else
    splitStringsChunkLength

/-- estraverse.replace with an enter-only visitor, as used by the second pass:
visit the node; a non-undefined return value replaces the node and the walk
then descends into the children of the replacement.  The external estraverse
walker is recursive; `fuel` bounds the walk depth and an exhausted fuel is
reported as diverged.  Every theorem below either holds for all fuel values or
exhibits a concrete sufficient fuel. -/
def replaceEnter (fuel : Nat) (visitor : ESNode → JSOutcome (Option ESNode)) :
    ESNode → JSOutcome ESNode :=
  fun node =>
    match fuel with
    | 0 => .diverged
    | fuel + 1 =>
      match visitor node with
      | .thrown m => .thrown m
      | .diverged => .diverged
      | .ok replaced =>
        match replaced.getD node with
        | .literal v => .ok (.literal v)
        | .binaryExpression op left right =>
          match replaceEnter fuel visitor left with
          | .thrown m => .thrown m
          | .diverged => .diverged
          | .ok newLeft =>
            match replaceEnter fuel visitor right with
            | .thrown m => .thrown m
            | .diverged => .diverged
            | .ok newRight => .ok (.binaryExpression op newLeft newRight)

/-- The enter callback of the second pass of transformNode: on a literal node,
return the node component of transformLiteralNodeByChunkLength at the second
pass chunk length; on any other node return undefined. -/
def secondPassVisitor (chunkLength : Nat) (node : ESNode) :
    JSOutcome (Option ESNode) :=
  match node with
  | .literal v =>
    match transformLiteralNodeByChunkLength (.literal v) chunkLength with
    | .ok pair => .ok (some pair.1)
    | .thrown m => .thrown m
    | .diverged => .diverged
  | _ => .ok none

/-- SplitStringTransformer.transformNode: prohibited literals pass through
(NodeLiteralUtils.isProhibitedLiteralNode is external and is abstracted as the
isProhibited flag); pass 1 splits at firstPassChunkLength; the chunk count
decides isLargeString and minSecondPathChunkLength; pass 2 re-walks the pass-1
result with estraverse.replace, re-splitting every literal leaf at the second
pass chunk length.  Parent link bookkeeping (NodeUtils.parentizeNode and
parentizeAst) relinks parent references and is identity on the structural tree
modelled here. -/
def transformNode (fuel : Nat) (literalNode : ESNode) (isProhibited : Bool)
    (splitStringsChunkLength : Nat) : JSOutcome ESNode :=
  if isProhibited then .ok literalNode
  else
    match transformLiteralNodeByChunkLength literalNode firstPassChunkLength with
    | .thrown m => .thrown m
    | .diverged => .diverged
    | .ok (firstPassChunksNode, stringChunks) =>
      replaceEnter fuel
        (secondPassVisitor
          (minSecondPathChunkLength stringChunks.length splitStringsChunkLength))
        firstPassChunksNode

/-- Full evaluation of a concatenation expression: a string literal evaluates
to its value, a binary "+" node to the concatenation of the evaluations of its
operands; anything else has no string value. -/
def evaluate : ESNode → Option JSString
  | .literal (.str s) => some s
  | .literal .nonString => none
  | .binaryExpression op left right =>
    if op = "+" then
      match evaluate left, evaluate right with
      | some a, some b => some (a ++ b)
      | _, _ => none
    else none

/-- The string values of the literal leaves of a node, left to right. -/
def strLeaves : ESNode → List JSString
  | .literal (.str s) => [s]
  | .literal .nonString => []
  | .binaryExpression _ left right => strLeaves left ++ strLeaves right

/-- The same estraverse.replace walk as replaceEnter, instrumented with a
freshness flag: after a substitution that actually changes the node the walk
descends into the freshly produced subtree with the flag set.  Alongside the
resulting node it returns two counters: visitor invocations on literal nodes of
freshly produced subtrees, and those of these invocations whose returned
replacement differs from the fresh literal (a genuine re-split of own output). -/
def replaceEnterFresh (fuel : Nat) (visitor : ESNode → JSOutcome (Option ESNode))
    (fresh : Bool) : ESNode → JSOutcome (ESNode × Nat × Nat) :=
  fun node =>
    match fuel with
    | 0 => .diverged
    | fuel + 1 =>
      let freshVisit : Nat := if fresh ∧ isLiteralNode node then 1 else 0
      match visitor node with
      | .thrown m => .thrown m
      | .diverged => .diverged
      | .ok replaced =>
        let next := replaced.getD node
        let freshResplit : Nat :=
          if fresh ∧ isLiteralNode node ∧ next ≠ node then 1 else 0
        let childFresh : Bool := if next = node then fresh else true
        match next with
        | .literal v => .ok (.literal v, freshVisit, freshResplit)
        | .binaryExpression op left right =>
          match replaceEnterFresh fuel visitor childFresh left with
          | .thrown m => .thrown m
          | .diverged => .diverged
          | .ok (newLeft, lv, lr) =>
            match replaceEnterFresh fuel visitor childFresh right with
            | .thrown m => .thrown m
            | .diverged => .diverged
            | .ok (newRight, rv, rr) =>
              .ok (.binaryExpression op newLeft newRight,
                freshVisit + lv + rv, freshResplit + lr + rr)

/-- The chunk list of chunkString at the code-point level: consecutive blocks
of chunkSize code points of the segmented string. -/
def chunkBlocks (segments : List JSString) (chunkSize : Nat) : List (List JSString) :=
  (List.range (ceilDiv segments.length chunkSize)).map
    (fun chunkIndex => ((segments.drop (chunkIndex * chunkSize)).take chunkSize))

/-- A well-formed code-point segment: a single unit, or a high surrogate
followed by a low surrogate. -/
def segWf (seg : JSString) : Prop :=
  (∃ u, seg = [u]) ∨
  (∃ hi lo, seg = [hi, lo] ∧ isHighSurrogate hi = true ∧ isLowSurrogate lo = true)

/-- Adjacent segments that re-segment independently: a lone high surrogate is
never followed by a segment starting with a low surrogate. -/
def segAdj (a b : JSString) : Prop :=
  ∀ u, a = [u] → isHighSurrogate u = true →
    ∀ v t, b = v :: t → isLowSurrogate v = false

/-- A segment list that re-segments to itself: every segment well formed and
adjacent segments independent. -/
def goodSegs (segments : List JSString) : Prop :=
  (∀ seg ∈ segments, segWf seg) ∧ segments.Chain' segAdj

end SplitString

namespace Orchestrator

/-- One observable step of JavaScriptObfuscatorInternal.obfuscate, in source
order: replacing the process-wide random generator, parsing, running the
obfuscation pipeline over the tree, generating output text. -/
inductive Event where
  | reseed (seed : Int)
  | parse
  | runPipeline
  | generate
deriving DecidableEq

/-- The configuration subset the orchestrator reads. -/
structure Options where
  seed : Int
  splitStrings : Bool
  splitStringsChunkLength : Nat
  sourceMap : Bool
  compact : Bool

/-- JavaScriptObfuscatorInternal.obfuscate.  The collaborators live outside
src/ and are modelled from the spec as the deterministic functions its
contracts describe: `chance` builds the seeded deterministic stream (the Chance
constructor), `parse` is the external parser (a pure function of the source
text), `pipeline` runs every pass, drawing all randomness from the single
given stream, and `generate` prints code and position map.  The orchestrator
itself follows the source line by line: when the configured seed is non-zero
the ambient stream is replaced by the seeded one before parsing, otherwise the
ambient stream is kept; then parse, pipeline, generate.  The returned event
trace records these steps in execution order. -/
def obfuscate {RNG Tree Output : Type}
    (chance : Int → RNG)
    (parse : List Nat → Tree)
    (pipeline : Tree → Options → RNG → Tree)
    (generate : Tree → Options → Output)
    (options : Options) (sourceCode : List Nat) (ambientRng : RNG) :
    Output × List Event :=
  let (rng, reseedEvents) :=
    if options.seed ≠ 0 then
      (chance options.seed, [Event.reseed options.seed])
    else
      (ambientRng, [])
  let astTree := parse sourceCode
  let obfuscatedAstTree := pipeline astTree options rng
  let generatorOutput := generate obfuscatedAstTree options
  (generatorOutput,
    reseedEvents ++ [Event.parse, Event.runPipeline, Event.generate])

end Orchestrator

namespace SplitString

/-! Helper lemmas: code-point segmentation. -/

theorem toArray_flatten (s : JSString) : (toArray s).flatten = s := by
  induction s using toArray.induct with
  | case1 => simp [toArray]
  | case2 u v rest h ih => simp [toArray, h, ih]
  | case3 u v rest h ih => simp [toArray, h, ih]
  | case4 u => simp [toArray]

theorem mem_toArray_ne_nil {s : JSString} :
    ∀ seg ∈ toArray s, seg ≠ [] := by
  induction s using toArray.induct with
  | case1 => simp [toArray]
  | case2 u v rest h ih =>
    simp only [toArray, h, if_pos]
    intro seg hseg
    rcases List.mem_cons.mp hseg with h1 | h1
    · subst h1; simp
    · exact ih seg h1
  | case3 u v rest h ih =>
    simp only [toArray, h, if_neg]
    intro seg hseg
    rcases List.mem_cons.mp hseg with h1 | h1
    · subst h1; simp
    · exact ih seg h1
  | case4 u => simp [toArray]

theorem toArray_cons (u : Nat) (t : JSString) :
    ∃ t2 rest, toArray (u :: t) = (u :: t2) :: rest := by
  match t with
  | [] => exact ⟨[], [], rfl⟩
  | v :: r =>
    by_cases h : (isHighSurrogate u && isLowSurrogate v) = true
    · exact ⟨[v], toArray r, by simp [toArray, h]⟩
    · exact ⟨[], toArray (v :: r), by simp [toArray, h]⟩

theorem segAdj_of_pair (a b : Nat) (t0 : List Nat) (y : JSString) :
    segAdj (a :: b :: t0) y := by
  intro w hw
  have hlen := congrArg List.length hw
  simp at hlen

theorem toArray_goodSegs (s : JSString) : goodSegs (toArray s) := by
  induction s using toArray.induct with
  | case1 => exact ⟨fun seg hseg => absurd hseg (List.not_mem_nil seg), List.chain'_nil⟩
  | case2 u v rest h ih =>
    simp only [toArray, h, if_pos]
    obtain ⟨hwf, hch⟩ := ih
    refine ⟨?_, ?_⟩
    · intro seg hseg
      rcases List.mem_cons.mp hseg with h1 | h1
      · subst h1
        simp only [Bool.and_eq_true] at h
        exact Or.inr ⟨u, v, rfl, h.1, h.2⟩
      · exact hwf seg h1
    · exact List.chain'_cons'.mpr ⟨fun y _ => segAdj_of_pair u v [] y, hch⟩
  | case3 u v rest h ih =>
    simp only [toArray, h, if_neg]
    obtain ⟨hwf, hch⟩ := ih
    refine ⟨?_, ?_⟩
    · intro seg hseg
      rcases List.mem_cons.mp hseg with h1 | h1
      · subst h1; exact Or.inl ⟨u, rfl⟩
      · exact hwf seg h1
    · refine List.chain'_cons'.mpr ⟨?_, hch⟩
      intro y hy
      intro w hw hhw z t2 hz
      obtain ⟨t3, rest3, h3⟩ := toArray_cons v rest
      rw [h3] at hy
      simp only [List.head?_cons, Option.mem_def, Option.some.injEq] at hy
      have hw' : u = w := by
        simp only [List.cons.injEq] at hw
        exact hw.1
      have hz' : z = v := by
        rw [← hy] at hz
        simp only [List.cons.injEq] at hz
        exact hz.1.symm
      cases hlz : isLowSurrogate z with
      | false => rfl
      | true =>
        exact absurd (by rw [hw', hhw, ← hz', hlz]; rfl) h
  | case4 u =>
    refine ⟨?_, List.chain'_singleton _⟩
    intro seg hseg
    simp only [toArray, List.mem_singleton] at hseg
    subst hseg
    exact Or.inl ⟨u, rfl⟩

theorem goodSegs_nil : goodSegs [] :=
  ⟨fun seg hseg => absurd hseg (List.not_mem_nil seg), List.chain'_nil⟩

theorem goodSegs_cons {seg : JSString} {rest : List JSString}
    (h : goodSegs (seg :: rest)) : goodSegs rest := by
  obtain ⟨hwf, hch⟩ := h
  exact ⟨fun s hs => hwf s (List.mem_cons_of_mem _ hs), (List.chain'_cons'.mp hch).2⟩

theorem goodSegs_toArray_flatten :
    ∀ (segments : List JSString), goodSegs segments →
      toArray segments.flatten = segments := by
  intro segments
  induction segments with
  | nil => intro _; simp [toArray]
  | cons seg rest ih =>
    intro hgood
    obtain ⟨hwf, hch⟩ := hgood
    have hrest : goodSegs rest := goodSegs_cons ⟨hwf, hch⟩
    rcases hwf seg (List.mem_cons_self seg rest) with ⟨u, rfl⟩ | ⟨hi, lo, rfl, hh, hl⟩
    · cases hflat : rest.flatten with
      | nil =>
        have hrnil : rest = [] := by
          cases rest with
          | nil => rfl
          | cons seg2 rest2 =>
            rcases hwf seg2 (List.mem_cons_of_mem _ (List.mem_cons_self _ _)) with
              ⟨u2, h2⟩ | ⟨hi2, lo2, h2, _, _⟩ <;>
              · subst h2; simp at hflat
        subst hrnil
        simp [toArray]
      | cons v t =>
        have hrcons : ∃ seg2 rest2 t2, rest = seg2 :: rest2 ∧ seg2 = v :: t2 := by
          cases rest with
          | nil => simp at hflat
          | cons seg2 rest2 =>
            have hne : seg2 ≠ [] := by
              rcases hwf seg2 (List.mem_cons_of_mem _ (List.mem_cons_self _ _)) with
                ⟨u2, h2⟩ | ⟨hi2, lo2, h2, _, _⟩ <;> subst h2 <;> simp
            cases hseg2 : seg2 with
            | nil => exact absurd hseg2 hne
            | cons w tw =>
              rw [hseg2] at hflat
              simp only [List.flatten_cons, List.cons_append, List.cons.injEq] at hflat
              exact ⟨w :: tw, rest2, tw, rfl, by rw [hflat.1]⟩
        obtain ⟨seg2, rest2, t2, hr2, hs2⟩ := hrcons
        have hnotpair : (isHighSurrogate u && isLowSurrogate v) = false := by
          cases hhu : isHighSurrogate u with
          | false => simp [hhu]
          | true =>
            have hadj : segAdj [u] seg2 := by
              rw [hr2] at hch
              exact (List.chain'_cons'.mp hch).1 seg2 (by simp)
            have := hadj u rfl hhu v t2 hs2
            simp [this]
        show toArray ([u] ++ rest.flatten) = [u] :: rest
        rw [hflat]
        simp only [List.singleton_append]
        rw [show toArray (u :: v :: t) = [u] :: toArray (v :: t) by
          simp [toArray, hnotpair]]
        rw [← hflat, ih hrest]
    · show toArray ([hi, lo] ++ rest.flatten) = [hi, lo] :: rest
      simp only [List.cons_append, List.nil_append]
      rw [show toArray (hi :: lo :: rest.flatten) = [hi, lo] :: toArray rest.flatten by
        simp [toArray, hh, hl]]
      rw [ih hrest]

theorem goodSegs_take {segments : List JSString} (h : goodSegs segments) (n : Nat) :
    goodSegs (segments.take n) := by
  obtain ⟨hwf, hch⟩ := h
  refine ⟨fun s hs => hwf s (List.take_subset n segments hs), ?_⟩
  have := hch
  rw [← List.take_append_drop n segments] at this
  exact List.Chain'.left_of_append this

theorem goodSegs_drop {segments : List JSString} (h : goodSegs segments) (n : Nat) :
    goodSegs (segments.drop n) := by
  obtain ⟨hwf, hch⟩ := h
  refine ⟨fun s hs => hwf s (List.drop_subset n segments hs), ?_⟩
  have := hch
  rw [← List.take_append_drop n segments] at this
  exact List.Chain'.right_of_append this

theorem czLength_flatten_of_goodSegs {segments : List JSString}
    (h : goodSegs segments) : czLength segments.flatten = segments.length := by
  unfold czLength
  rw [goodSegs_toArray_flatten segments h]

theorem czLength_eq_zero_iff (s : JSString) : czLength s = 0 ↔ s = [] := by
  unfold czLength
  constructor
  · intro h
    rw [List.length_eq_zero] at h
    have := toArray_flatten s
    rw [h] at this
    simpa using this.symm
  · intro h; subst h; rfl

/-! Helper lemmas: ceilDiv arithmetic and chunk blocks. -/

theorem le_ceilDiv_mul (L K : Nat) (hK : 1 ≤ K) : L ≤ ceilDiv L K * K := by
  unfold ceilDiv
  have h1 : (L + K - 1) / K * K + (L + K - 1) % K = L + K - 1 :=
    Nat.div_add_mod' (L + K - 1) K
  have h2 : (L + K - 1) % K < K := Nat.mod_lt _ hK
  generalize (L + K - 1) / K * K = a at h1 ⊢
  omega

theorem ceilDiv_mul_lt (L K : Nat) (hK : 1 ≤ K) (hL : 1 ≤ L) :
    (ceilDiv L K - 1) * K < L := by
  unfold ceilDiv
  have h1 : (L + K - 1) / K * K ≤ L + K - 1 := Nat.div_mul_le_self _ _
  have h0 : 1 ≤ (L + K - 1) / K := by
    rw [Nat.one_le_div_iff hK]
    omega
  rw [Nat.sub_one_mul]
  generalize hq : (L + K - 1) / K * K = a at h1 ⊢
  omega

theorem ceilDiv_pos (L K : Nat) (hK : 1 ≤ K) (hL : 1 ≤ L) : 1 ≤ ceilDiv L K := by
  unfold ceilDiv
  rw [Nat.one_le_div_iff hK]
  omega

theorem two_le_ceilDiv (L K : Nat) (hK : 1 ≤ K) (hKL : K < L) : 2 ≤ ceilDiv L K := by
  unfold ceilDiv
  rw [Nat.le_div_iff_mul_le hK]
  omega

theorem chunkBlocks_length (segments : List JSString) (K : Nat) :
    (chunkBlocks segments K).length = ceilDiv segments.length K := by
  unfold chunkBlocks
  rw [List.length_map, List.length_range]

theorem chunkBlocks_flatten_aux (K : Nat) :
    ∀ (n : Nat) (A : List JSString), A.length ≤ n * K →
      ((List.range n).map (fun i => ((A.drop (i * K)).take K))).flatten = A := by
  intro n
  induction n with
  | zero =>
    intro A h
    simp only [Nat.zero_mul, Nat.le_zero, List.length_eq_zero] at h
    simp [h]
  | succ n ih =>
    intro A h
    rw [List.range_succ_eq_map]
    simp only [List.map_cons, List.map_map, List.flatten_cons, Nat.zero_mul,
      List.drop_zero]
    have hstep : List.map ((fun i => ((A.drop (i * K)).take K)) ∘ Nat.succ)
          (List.range n)
        = List.map (fun i => (((A.drop K).drop (i * K)).take K)) (List.range n) := by
      apply List.map_congr_left
      intro i _
      simp only [Function.comp_apply]
      rw [List.drop_drop]
      have hm : Nat.succ i * K = K + i * K := by
        rw [Nat.succ_mul]
        omega
      rw [hm]
    rw [hstep]
    rw [ih (A.drop K) (by
      rw [List.length_drop]
      have hm : (n + 1) * K = n * K + K := by ring
      omega)]
    exact List.take_append_drop K A

theorem chunkBlocks_flatten (segments : List JSString) (K : Nat) (hK : 1 ≤ K) :
    (chunkBlocks segments K).flatten = segments := by
  unfold chunkBlocks
  exact chunkBlocks_flatten_aux K (ceilDiv segments.length K) segments
    (le_ceilDiv_mul segments.length K hK)

theorem chunkBlocks_block_length_le (segments : List JSString) (K : Nat) :
    ∀ b ∈ chunkBlocks segments K, b.length ≤ K := by
  intro b hb
  unfold chunkBlocks at hb
  rw [List.mem_map] at hb
  obtain ⟨i, _, rfl⟩ := hb
  rw [List.length_take]
  omega

theorem chunkBlocks_block_ne_nil (segments : List JSString) (K : Nat) (hK : 1 ≤ K) :
    ∀ b ∈ chunkBlocks segments K, b ≠ [] := by
  intro b hb
  unfold chunkBlocks at hb
  rw [List.mem_map] at hb
  obtain ⟨i, hi, rfl⟩ := hb
  rw [List.mem_range] at hi
  have hL : 1 ≤ segments.length := by
    rcases Nat.eq_zero_or_pos segments.length with h0 | h1
    · rw [h0] at hi
      have hz : ceilDiv 0 K = 0 := by
        unfold ceilDiv
        rw [Nat.zero_add]
        exact Nat.div_eq_of_lt (by omega)
      rw [hz] at hi
      exact absurd hi (by omega)
    · exact h1
  have hik : i * K < segments.length := by
    have h1 : i ≤ ceilDiv segments.length K - 1 := by omega
    have h2 : i * K ≤ (ceilDiv segments.length K - 1) * K :=
      Nat.mul_le_mul_right K h1
    have h3 := ceilDiv_mul_lt segments.length K hK hL
    omega
  intro hb0
  have : ((segments.drop (i * K)).take K).length = 0 := by rw [hb0]; rfl
  rw [List.length_take, List.length_drop] at this
  omega

theorem chunkBlocks_goodSegs {segments : List JSString} (h : goodSegs segments)
    (K : Nat) : ∀ b ∈ chunkBlocks segments K, goodSegs b := by
  intro b hb
  unfold chunkBlocks at hb
  rw [List.mem_map] at hb
  obtain ⟨i, _, rfl⟩ := hb
  exact goodSegs_take (goodSegs_drop h (i * K)) K

theorem chunkBlocks_subset (segments : List JSString) (K : Nat) :
    ∀ b ∈ chunkBlocks segments K, ∀ seg ∈ b, seg ∈ segments := by
  intro b hb seg hseg
  unfold chunkBlocks at hb
  rw [List.mem_map] at hb
  obtain ⟨i, _, rfl⟩ := hb
  exact List.drop_subset (i * K) segments (List.take_subset K _ hseg)

/-! Helper lemmas: the chunking routine. -/

theorem chunkString_eq_blocks (s : JSString) (K : Nat) (hK : 1 ≤ K) :
    chunkString s (czLength s) K
      = .ok ((chunkBlocks (toArray s) K).map List.flatten) := by
  unfold chunkString chunkBlocks czSubstr
  rw [if_neg (by omega), List.map_map]
  rfl

theorem chunkString_spec (s : JSString) (K : Nat) (hK : 1 ≤ K) :
    ∃ chunks, chunkString s (czLength s) K = .ok chunks ∧
      chunks = (chunkBlocks (toArray s) K).map List.flatten ∧
      chunks.length = ceilDiv (czLength s) K ∧
      chunks.flatten = s ∧
      (chunks.map czLength).sum = czLength s ∧
      (∀ c ∈ chunks, czLength c ≤ K) ∧
      (∀ c ∈ chunks, c ≠ []) := by
  refine ⟨(chunkBlocks (toArray s) K).map List.flatten,
    chunkString_eq_blocks s K hK, rfl, ?_, ?_, ?_, ?_, ?_⟩
  · rw [List.length_map, chunkBlocks_length]
    rfl
  · rw [← List.flatten_flatten, chunkBlocks_flatten _ K hK, toArray_flatten]
  · have hmap : ((chunkBlocks (toArray s) K).map List.flatten).map czLength
        = (chunkBlocks (toArray s) K).map List.length := by
      rw [List.map_map]
      apply List.map_congr_left
      intro b hb
      exact czLength_flatten_of_goodSegs
        (chunkBlocks_goodSegs (toArray_goodSegs s) K b hb)
    rw [hmap, ← List.length_flatten, chunkBlocks_flatten _ K hK]
    rfl
  · intro c hc
    rw [List.mem_map] at hc
    obtain ⟨b, hb, rfl⟩ := hc
    rw [czLength_flatten_of_goodSegs (chunkBlocks_goodSegs (toArray_goodSegs s) K b hb)]
    exact chunkBlocks_block_length_le (toArray s) K b hb
  · intro c hc
    rw [List.mem_map] at hc
    obtain ⟨b, hb, rfl⟩ := hc
    have hbne : b ≠ [] := chunkBlocks_block_ne_nil (toArray s) K hK b hb
    intro hflat
    rw [List.flatten_eq_nil_iff] at hflat
    cases b with
    | nil => exact hbne rfl
    | cons seg b2 =>
      have hseg : seg ∈ toArray s :=
        chunkBlocks_subset (toArray s) K _ hb seg (List.mem_cons_self _ _)
      exact mem_toArray_ne_nil seg hseg (hflat seg (List.mem_cons_self _ _))

/-! Helper lemmas: the expression builder. -/

theorem builder_ok (c1 c2 : JSString) (rest : List JSString)
    (h1 : c1 ≠ []) (h2 : c2 ≠ []) :
    transformStringChunksToBinaryExpressionNode (c1 :: c2 :: rest)
      = .ok (rest.foldl
          (fun binaryExpressionNode chunk =>
            ESNode.binaryExpression "+" binaryExpressionNode
              (ESNode.literal (.str chunk)))
          (ESNode.binaryExpression "+"
            (ESNode.literal (.str c1)) (ESNode.literal (.str c2))),
          rest) := by
  simp only [transformStringChunksToBinaryExpressionNode]
  rw [if_neg (by simp [h1, h2])]

theorem builder_thrown (chunks : List JSString) (h : chunks.length < 2) :
    transformStringChunksToBinaryExpressionNode chunks
      = .thrown "First and second chunks values should not be empty" := by
  match chunks with
  | [] => rfl
  | [c] => rfl
  | c1 :: c2 :: rest =>
    rw [List.length_cons, List.length_cons] at h
    omega

theorem evaluate_foldl (rest : List JSString) :
    ∀ (base : ESNode) (s : JSString), evaluate base = some s →
      evaluate (rest.foldl
        (fun binaryExpressionNode chunk =>
          ESNode.binaryExpression "+" binaryExpressionNode
            (ESNode.literal (.str chunk))) base)
        = some (s ++ rest.flatten) := by
  induction rest with
  | nil =>
    intro base s h
    simpa using h
  | cons c rest ih =>
    intro base s h
    rw [List.foldl_cons]
    have hb : evaluate (ESNode.binaryExpression "+" base (ESNode.literal (.str c)))
        = some (s ++ c) := by
      simp [evaluate, h]
    rw [ih _ _ hb]
    simp

theorem builder_evaluate (chunks : List JSString) (T : ESNode)
    (after : List JSString)
    (h : transformStringChunksToBinaryExpressionNode chunks = .ok (T, after)) :
    evaluate T = some chunks.flatten := by
  match chunks with
  | [] => simp [transformStringChunksToBinaryExpressionNode] at h
  | [c] => simp [transformStringChunksToBinaryExpressionNode] at h
  | c1 :: c2 :: rest =>
    simp only [transformStringChunksToBinaryExpressionNode] at h
    by_cases hc : c1 = [] ∨ c2 = []
    · rw [if_pos hc] at h
      cases h
    · rw [if_neg hc] at h
      cases h
      have hbase : evaluate (ESNode.binaryExpression "+"
          (ESNode.literal (.str c1)) (ESNode.literal (.str c2))) = some (c1 ++ c2) := by
        simp [evaluate]
      rw [evaluate_foldl _ _ _ hbase]
      simp

theorem strLeaves_foldl (rest : List JSString) :
    ∀ base, strLeaves (rest.foldl
        (fun binaryExpressionNode chunk =>
          ESNode.binaryExpression "+" binaryExpressionNode
            (ESNode.literal (.str chunk))) base)
      = strLeaves base ++ rest := by
  induction rest with
  | nil => intro base; simp
  | cons c rest ih =>
    intro base
    rw [List.foldl_cons, ih]
    simp [strLeaves]

theorem builder_strLeaves (chunks : List JSString) (T : ESNode)
    (after : List JSString)
    (h : transformStringChunksToBinaryExpressionNode chunks = .ok (T, after)) :
    strLeaves T = chunks := by
  match chunks with
  | [] => simp [transformStringChunksToBinaryExpressionNode] at h
  | [c] => simp [transformStringChunksToBinaryExpressionNode] at h
  | c1 :: c2 :: rest =>
    simp only [transformStringChunksToBinaryExpressionNode] at h
    by_cases hc : c1 = [] ∨ c2 = []
    · rw [if_pos hc] at h
      cases h
    · rw [if_neg hc] at h
      cases h
      rw [strLeaves_foldl]
      simp [strLeaves]

theorem builder_after (chunks : List JSString) (T : ESNode)
    (after : List JSString)
    (h : transformStringChunksToBinaryExpressionNode chunks = .ok (T, after)) :
    after = chunks.drop 2 := by
  match chunks with
  | [] => simp [transformStringChunksToBinaryExpressionNode] at h
  | [c] => simp [transformStringChunksToBinaryExpressionNode] at h
  | c1 :: c2 :: rest =>
    simp only [transformStringChunksToBinaryExpressionNode] at h
    by_cases hc : c1 = [] ∨ c2 = []
    · rw [if_pos hc] at h
      cases h
    · rw [if_neg hc] at h
      cases h
      rfl

/-! Helper lemmas: transformLiteralNodeByChunkLength. -/

theorem tf_guard (v : JSString) (K : Nat) (h : czLength v ≤ K) :
    transformLiteralNodeByChunkLength (.literal (.str v)) K
      = .ok (.literal (.str v), []) := by
  simp only [transformLiteralNodeByChunkLength]
  rw [if_pos h]

theorem tf_nonString (K : Nat) :
    transformLiteralNodeByChunkLength (.literal .nonString) K
      = .ok (.literal .nonString, []) := rfl

theorem tf_binaryExpression (op : String) (l r : ESNode) (K : Nat) :
    transformLiteralNodeByChunkLength (.binaryExpression op l r) K
      = .ok (.binaryExpression op l r, []) := rfl

theorem tf_zero_diverged (v : JSString) (hv : 1 ≤ czLength v) :
    transformLiteralNodeByChunkLength (.literal (.str v)) 0 = .diverged := by
  simp only [transformLiteralNodeByChunkLength]
  rw [if_neg (by omega)]
  have hchunk : chunkString v (czLength v) 0 = .diverged := by
    unfold chunkString
    rw [if_pos rfl, if_neg (by omega)]
  rw [hchunk]

theorem tf_split (v : JSString) (K : Nat) (hK : 1 ≤ K) (hKL : K < czLength v) :
    ∃ T chunks,
      chunkString v (czLength v) K = .ok chunks ∧
      transformLiteralNodeByChunkLength (.literal (.str v)) K
        = .ok (T, chunks.drop 2) ∧
      chunks = (chunkBlocks (toArray v) K).map List.flatten ∧
      chunks.length = ceilDiv (czLength v) K ∧
      chunks.flatten = v ∧
      (∀ c ∈ chunks, czLength c ≤ K) ∧
      (∀ c ∈ chunks, c ≠ []) ∧
      transformStringChunksToBinaryExpressionNode chunks = .ok (T, chunks.drop 2) ∧
      strLeaves T = chunks ∧
      evaluate T = some v := by
  obtain ⟨chunks, hcs, hblocks, hlen, hflat, hsum, hle, hne⟩ := chunkString_spec v K hK
  have h2 : 2 ≤ chunks.length := by
    rw [hlen]
    exact two_le_ceilDiv (czLength v) K hK hKL
  match chunks, hcs, hblocks, hlen, hflat, hle, hne, h2 with
  | c1 :: c2 :: rest, hcs, hblocks, hlen, hflat, hle, hne, _ =>
    have h1ne : c1 ≠ [] := hne c1 (List.mem_cons_self _ _)
    have h2ne : c2 ≠ [] := hne c2 (List.mem_cons_of_mem _ (List.mem_cons_self _ _))
    have hbuild := builder_ok c1 c2 rest h1ne h2ne
    have hdrop : (c1 :: c2 :: rest).drop 2 = rest := rfl
    refine ⟨rest.foldl
        (fun binaryExpressionNode chunk =>
          ESNode.binaryExpression "+" binaryExpressionNode
            (ESNode.literal (.str chunk)))
        (ESNode.binaryExpression "+"
          (ESNode.literal (.str c1)) (ESNode.literal (.str c2))),
      c1 :: c2 :: rest, hcs, ?_, hblocks, hlen, hflat, hle, hne, ?_, ?_, ?_⟩
    · simp only [transformLiteralNodeByChunkLength]
      rw [if_neg (by omega), hcs]
      simp only [hbuild, hdrop]
    · rw [hdrop]
      exact hbuild
    · exact builder_strLeaves _ _ _ hbuild
    · rw [builder_evaluate _ _ _ hbuild, hflat]

theorem tf_ok_evaluate (v : JSString) (K : Nat) (n : ESNode) (cs : List JSString)
    (h : transformLiteralNodeByChunkLength (.literal (.str v)) K = .ok (n, cs)) :
    evaluate n = some v := by
  by_cases hg : czLength v ≤ K
  · rw [tf_guard v K hg] at h
    cases h
    rfl
  · push_neg at hg
    by_cases hK : 1 ≤ K
    · obtain ⟨T, chunks, _, heq, _, _, _, _, _, _, _, heval⟩ := tf_split v K hK hg
      rw [heq] at h
      cases h
      exact heval
    · have hK0 : K = 0 := by omega
      subst hK0
      rw [tf_zero_diverged v (by omega)] at h
      cases h

theorem tf_never_thrown (node : ESNode) (K : Nat) (m : String) :
    transformLiteralNodeByChunkLength node K ≠ .thrown m := by
  match node with
  | .literal .nonString => rw [tf_nonString]; intro h; cases h
  | .binaryExpression op l r => rw [tf_binaryExpression]; intro h; cases h
  | .literal (.str v) =>
    by_cases hg : czLength v ≤ K
    · rw [tf_guard v K hg]; intro h; cases h
    · push_neg at hg
      by_cases hK : 1 ≤ K
      · obtain ⟨T, chunks, _, heq, _⟩ := tf_split v K hK hg
        rw [heq]; intro h; cases h
      · have hK0 : K = 0 := by omega
        subst hK0
        rw [tf_zero_diverged v (by omega)]
        intro h; cases h

theorem tf_small_produced (v : JSString) (K : Nat) (hK : 1 ≤ K)
    (h : ceilDiv (czLength v) K < 2) :
    transformLiteralNodeByChunkLength (.literal (.str v)) K
      = .ok (.literal (.str v), []) := by
  apply tf_guard
  by_contra hc
  push_neg at hc
  exact absurd (two_le_ceilDiv (czLength v) K hK hc) (by omega)

theorem tf_ok_fresh_small (node n : ESNode) (K : Nat) (cs : List JSString)
    (h : transformLiteralNodeByChunkLength node K = .ok (n, cs))
    (hneq : n ≠ node) : ∀ s ∈ strLeaves n, czLength s ≤ K := by
  match node with
  | .literal .nonString => rw [tf_nonString] at h; cases h; exact absurd rfl hneq
  | .binaryExpression op l r => rw [tf_binaryExpression] at h; cases h; exact absurd rfl hneq
  | .literal (.str v) =>
    by_cases hg : czLength v ≤ K
    · rw [tf_guard v K hg] at h; cases h; exact absurd rfl hneq
    · push_neg at hg
      by_cases hK : 1 ≤ K
      · obtain ⟨T, chunks, _, heq, _, _, _, hle, _, _, hleaves, _⟩ := tf_split v K hK hg
        rw [heq] at h
        cases h
        rw [hleaves]
        exact hle
      · have hK0 : K = 0 := by omega
        subst hK0
        rw [tf_zero_diverged v (by omega)] at h
        cases h

/-! Helper lemmas: the second-pass walk. -/

theorem evaluate_binary_inv (op : String) (l r : ESNode) (s : JSString)
    (h : evaluate (.binaryExpression op l r) = some s) :
    op = "+" ∧ ∃ a b, evaluate l = some a ∧ evaluate r = some b ∧ s = a ++ b := by
  simp only [evaluate] at h
  by_cases hop : op = "+"
  · rw [if_pos hop] at h
    cases ha : evaluate l with
    | none => rw [ha] at h; cases h
    | some a =>
      cases hb : evaluate r with
      | none => rw [ha, hb] at h; cases h
      | some b =>
        rw [ha, hb] at h
        cases h
        exact ⟨hop, a, b, rfl, rfl, rfl⟩
  · rw [if_neg hop] at h
    cases h

theorem replaceEnter_succ (fuel : Nat) (visitor : ESNode → JSOutcome (Option ESNode))
    (node : ESNode) :
    replaceEnter (fuel + 1) visitor node =
      match visitor node with
      | .thrown m => .thrown m
      | .diverged => .diverged
      | .ok replaced =>
        match replaced.getD node with
        | .literal v => .ok (.literal v)
        | .binaryExpression op left right =>
          match replaceEnter fuel visitor left with
          | .thrown m => .thrown m
          | .diverged => .diverged
          | .ok newLeft =>
            match replaceEnter fuel visitor right with
            | .thrown m => .thrown m
            | .diverged => .diverged
            | .ok newRight => .ok (.binaryExpression op newLeft newRight) := rfl

theorem replaceEnter_never_thrown (K : Nat) :
    ∀ (fuel : Nat) (n : ESNode) (m : String),
      replaceEnter fuel (secondPassVisitor K) n ≠ JSOutcome.thrown m := by
  intro fuel
  induction fuel with
  | zero => intro n m h; cases h
  | succ fuel ih =>
    intro n m h
    rw [replaceEnter_succ] at h
    cases n with
    | literal v =>
      cases htf : transformLiteralNodeByChunkLength (.literal v) K with
      | thrown m2 => exact tf_never_thrown (.literal v) K m2 htf
      | diverged => simp only [secondPassVisitor, htf] at h; cases h
      | ok pair =>
        obtain ⟨m1, cs⟩ := pair
        cases m1 with
        | literal v2 =>
          simp only [secondPassVisitor, htf, Option.getD_some] at h
          cases h
        | binaryExpression op l r =>
          simp only [secondPassVisitor, htf, Option.getD_some] at h
          cases hl : replaceEnter fuel (secondPassVisitor K) l with
          | thrown m3 => exact ih l m3 hl
          | diverged => rw [hl] at h; cases h
          | ok newLeft =>
            rw [hl] at h
            cases hr : replaceEnter fuel (secondPassVisitor K) r with
            | thrown m4 => exact ih r m4 hr
            | diverged => rw [hr] at h; cases h
            | ok newRight => rw [hr] at h; cases h
    | binaryExpression op l r =>
      simp only [secondPassVisitor, Option.getD_none] at h
      cases hl : replaceEnter fuel (secondPassVisitor K) l with
      | thrown m3 => exact ih l m3 hl
      | diverged => rw [hl] at h; cases h
      | ok newLeft =>
        rw [hl] at h
        cases hr : replaceEnter fuel (secondPassVisitor K) r with
        | thrown m4 => exact ih r m4 hr
        | diverged => rw [hr] at h; cases h
        | ok newRight => rw [hr] at h; cases h

theorem replaceEnter_preserves_evaluate (K : Nat) :
    ∀ (fuel : Nat) (n n' : ESNode) (s : JSString),
      replaceEnter fuel (secondPassVisitor K) n = .ok n' →
      evaluate n = some s → evaluate n' = some s := by
  intro fuel
  induction fuel with
  | zero => intro n n' s h; cases h
  | succ fuel ih =>
    intro n n' s h heval
    rw [replaceEnter_succ] at h
    cases n with
    | literal v =>
      cases v with
      | nonString => simp [evaluate] at heval
      | str w =>
        have hw : w = s := by simpa [evaluate] using heval
        subst hw
        cases htf : transformLiteralNodeByChunkLength (.literal (.str w)) K with
        | thrown m => simp only [secondPassVisitor, htf] at h; cases h
        | diverged => simp only [secondPassVisitor, htf] at h; cases h
        | ok pair =>
          obtain ⟨m1, cs⟩ := pair
          have hm : evaluate m1 = some w := tf_ok_evaluate w K m1 cs htf
          cases m1 with
          | literal v2 =>
            simp only [secondPassVisitor, htf, Option.getD_some] at h
            cases h
            exact hm
          | binaryExpression op l r =>
            simp only [secondPassVisitor, htf, Option.getD_some] at h
            obtain ⟨hop, a, b, ha, hb, hab⟩ := evaluate_binary_inv op l r w hm
            cases hl : replaceEnter fuel (secondPassVisitor K) l with
            | thrown m3 => rw [hl] at h; cases h
            | diverged => rw [hl] at h; cases h
            | ok newLeft =>
              rw [hl] at h
              cases hr : replaceEnter fuel (secondPassVisitor K) r with
              | thrown m4 => rw [hr] at h; cases h
              | diverged => rw [hr] at h; cases h
              | ok newRight =>
                rw [hr] at h
                cases h
                have ha2 := ih l newLeft a hl ha
                have hb2 := ih r newRight b hr hb
                rw [hab, hop]
                simp [evaluate, ha2, hb2]
    | binaryExpression op l r =>
      obtain ⟨hop, a, b, ha, hb, hab⟩ := evaluate_binary_inv op l r s heval
      simp only [secondPassVisitor, Option.getD_none] at h
      cases hl : replaceEnter fuel (secondPassVisitor K) l with
      | thrown m3 => rw [hl] at h; cases h
      | diverged => rw [hl] at h; cases h
      | ok newLeft =>
        rw [hl] at h
        cases hr : replaceEnter fuel (secondPassVisitor K) r with
        | thrown m4 => rw [hr] at h; cases h
        | diverged => rw [hr] at h; cases h
        | ok newRight =>
          rw [hr] at h
          cases h
          have ha2 := ih l newLeft a hl ha
          have hb2 := ih r newRight b hr hb
          rw [hab, hop]
          simp [evaluate, ha2, hb2]

theorem replaceEnter_zero_diverged :
    ∀ (fuel : Nat) (n : ESNode), (∃ s ∈ strLeaves n, s ≠ []) →
      replaceEnter fuel (secondPassVisitor 0) n = .diverged := by
  intro fuel
  induction fuel with
  | zero => intro n _; rfl
  | succ fuel ih =>
    intro n hleaf
    obtain ⟨s, hs, hsne⟩ := hleaf
    rw [replaceEnter_succ]
    cases n with
    | literal v =>
      cases v with
      | nonString => simp [strLeaves] at hs
      | str w =>
        simp only [strLeaves, List.mem_singleton] at hs
        subst hs
        have hv : 1 ≤ czLength s := by
          by_contra hc
          exact hsne ((czLength_eq_zero_iff s).mp (by omega))
        simp only [secondPassVisitor, tf_zero_diverged s hv]
    | binaryExpression op l r =>
      simp only [secondPassVisitor, Option.getD_none]
      simp only [strLeaves, List.mem_append] at hs
      cases hs with
      | inl hsl =>
        rw [ih l ⟨s, hsl, hsne⟩]
      | inr hsr =>
        cases hl : replaceEnter fuel (secondPassVisitor 0) l with
        | thrown m3 => exact absurd hl (replaceEnter_never_thrown 0 fuel l m3)
        | diverged => rfl
        | ok newLeft =>
          rw [ih r ⟨s, hsr, hsne⟩]

theorem replaceEnterFresh_succ (fuel : Nat)
    (visitor : ESNode → JSOutcome (Option ESNode)) (fresh : Bool) (node : ESNode) :
    replaceEnterFresh (fuel + 1) visitor fresh node =
      (match visitor node with
      | .thrown m => .thrown m
      | .diverged => .diverged
      | .ok replaced =>
        match replaced.getD node with
        | .literal v =>
          .ok (.literal v,
            (if fresh ∧ isLiteralNode node then 1 else 0),
            (if fresh ∧ isLiteralNode node ∧ replaced.getD node ≠ node then 1 else 0))
        | .binaryExpression op left right =>
          match replaceEnterFresh fuel visitor
              (if replaced.getD node = node then fresh else true) left with
          | .thrown m => .thrown m
          | .diverged => .diverged
          | .ok (newLeft, lv, lr) =>
            match replaceEnterFresh fuel visitor
                (if replaced.getD node = node then fresh else true) right with
            | .thrown m => .thrown m
            | .diverged => .diverged
            | .ok (newRight, rv, rr) =>
              .ok (.binaryExpression op newLeft newRight,
                (if fresh ∧ isLiteralNode node then 1 else 0) + lv + rv,
                (if fresh ∧ isLiteralNode node ∧ replaced.getD node ≠ node then 1 else 0)
                  + lr + rr)) := rfl

theorem replaceEnterFresh_no_resplit (K : Nat) :
    ∀ (fuel : Nat) (fresh : Bool) (n : ESNode),
      (fresh = true → ∀ s ∈ strLeaves n, czLength s ≤ K) →
      ∀ n' a b,
        replaceEnterFresh fuel (secondPassVisitor K) fresh n = .ok (n', a, b) →
        b = 0 := by
  intro fuel
  induction fuel with
  | zero => intro fresh n _ n' a b h; cases h
  | succ fuel ih =>
    intro fresh n hsmall n' a b h
    rw [replaceEnterFresh_succ] at h
    cases n with
    | literal v =>
      cases htf : transformLiteralNodeByChunkLength (.literal v) K with
      | thrown m => simp only [secondPassVisitor, htf] at h; cases h
      | diverged => simp only [secondPassVisitor, htf] at h; cases h
      | ok pair =>
        obtain ⟨m1, cs⟩ := pair
        by_cases hmn : m1 = ESNode.literal v
        · subst hmn
          simp only [secondPassVisitor, htf, Option.getD_some, ne_eq,
            not_true_eq_false, and_false, if_false] at h
          cases h
          rfl
        · have hfresh : fresh = false := by
            cases hf : fresh with
            | false => rfl
            | true =>
              exfalso
              cases v with
              | nonString =>
                rw [tf_nonString] at htf
                cases htf
                exact hmn rfl
              | str w =>
                have hwk : czLength w ≤ K := hsmall hf w (by simp [strLeaves])
                rw [tf_guard w K hwk] at htf
                cases htf
                exact hmn rfl
          subst hfresh
          have hfreshsub : ∀ s2 ∈ strLeaves m1, czLength s2 ≤ K :=
            tf_ok_fresh_small (.literal v) m1 K cs htf hmn
          cases m1 with
          | literal v2 =>
            simp only [secondPassVisitor, htf, Option.getD_some,
              false_and, if_false] at h
            cases h
            rfl
          | binaryExpression op l r =>
            simp only [strLeaves, List.mem_append] at hfreshsub
            simp only [secondPassVisitor, htf, Option.getD_some,
              false_and, if_false, if_neg hmn] at h
            cases hl : replaceEnterFresh fuel (secondPassVisitor K) true l with
            | thrown m3 => rw [hl] at h; cases h
            | diverged => rw [hl] at h; cases h
            | ok resl =>
              rw [hl] at h
              obtain ⟨newLeft, lv, lr⟩ := resl
              cases hr : replaceEnterFresh fuel (secondPassVisitor K) true r with
              | thrown m4 => rw [hr] at h; cases h
              | diverged => rw [hr] at h; cases h
              | ok resr =>
                rw [hr] at h
                obtain ⟨newRight, rv, rr⟩ := resr
                cases h
                have hlz := ih true l
                  (fun _ s2 hs2 => hfreshsub s2 (Or.inl hs2)) newLeft lv lr hl
                have hrz := ih true r
                  (fun _ s2 hs2 => hfreshsub s2 (Or.inr hs2)) newRight rv rr hr
                simp only [Bool.false_eq_true, false_and, if_false]
                omega
    | binaryExpression op l r =>
      have hsub : fresh = true → ∀ s2 ∈ strLeaves l ++ strLeaves r,
          czLength s2 ≤ K := by
        intro hf
        have := hsmall hf
        simpa [strLeaves] using this
      simp only [secondPassVisitor, Option.getD_none, isLiteralNode,
        Bool.false_eq_true, false_and, and_false, if_false, if_true] at h
      cases hl : replaceEnterFresh fuel (secondPassVisitor K) fresh l with
      | thrown m3 => rw [hl] at h; cases h
      | diverged => rw [hl] at h; cases h
      | ok resl =>
        rw [hl] at h
        obtain ⟨newLeft, lv, lr⟩ := resl
        cases hr : replaceEnterFresh fuel (secondPassVisitor K) fresh r with
        | thrown m4 => rw [hr] at h; cases h
        | diverged => rw [hr] at h; cases h
        | ok resr =>
          rw [hr] at h
          obtain ⟨newRight, rv, rr⟩ := resr
          cases h
          have hlz := ih fresh l
            (fun hf s2 hs2 => hsub hf s2 (List.mem_append.mpr (Or.inl hs2)))
            newLeft lv lr hl
          have hrz := ih fresh r
            (fun hf s2 hs2 => hsub hf s2 (List.mem_append.mpr (Or.inr hs2)))
            newRight rv rr hr
          omega

/-! Helper lemmas: sizing computations and replicate strings. -/

theorem isLargeString_iff (n : Nat) : isLargeString n = true ↔ 30 ≤ n := by
  unfold isLargeString maxStringLengthForSecondPass firstPassChunkLength
  norm_num

theorem minSecondPathChunkLength_eq (n t : Nat) :
    minSecondPathChunkLength n t = if 30 ≤ n then n / t else t := by
  unfold minSecondPathChunkLength
  by_cases h : 30 ≤ n
  · rw [if_pos ((isLargeString_iff n).mpr h), if_pos h]
  · rw [if_neg fun hc => h ((isLargeString_iff n).mp hc), if_neg h]

theorem toArray_of_no_high (s : JSString) (h : ∀ u ∈ s, isHighSurrogate u = false) :
    toArray s = s.map (fun u => [u]) := by
  induction s using toArray.induct with
  | case1 => rfl
  | case2 u v rest hcond ih =>
    exfalso
    rw [Bool.and_eq_true] at hcond
    have hu := h u (List.mem_cons_self _ _)
    rw [hcond.1] at hu
    cases hu
  | case3 u v rest hcond ih =>
    simp only [toArray, hcond, if_false, List.map_cons]
    rw [ih (fun w hw => h w (List.mem_cons_of_mem _ hw))]
    rfl
  | case4 u => rfl

theorem czLength_replicate_97 (n : Nat) : czLength (List.replicate n 97) = n := by
  unfold czLength
  rw [toArray_of_no_high]
  · rw [List.length_map, List.length_replicate]
  · intro u hu
    rw [List.eq_of_mem_replicate hu]
    rfl

/-! Claim theorems. -/

/-- Claim C1, counterexample: for the two-code-point string "ab" the phase-1
split is skipped (1000 is at least the length), so the recorded chunk count is
0, while ceil(2 / 1000) = 1; the recorded count is not ceil(L/1000). -/
theorem claim1_counterexample :
    transformLiteralNodeByChunkLength (.literal (.str [97, 98])) firstPassChunkLength
      = .ok (.literal (.str [97, 98]), ([] : List JSString)) ∧
    ceilDiv (czLength [97, 98]) firstPassChunkLength = 1 ∧
    (([] : List JSString)).length ≠ 1 := by
  refine ⟨by decide, by decide, by decide⟩

/-- Claim C1 (amended): for every string literal eligible for splitting, the
phase-1 split records a chunk count N1 equal to ceil(L / 1000) - 2 when L
exceeds 1000 (the chunking routine produces ceil(L/1000) chunks, and the
builder shifts the first two out of the shared array before the count is
read) and 0 otherwise (phase 1 skips short strings); the string is classified
large exactly when N1 is at least 30; and the phase-2 chunk length is
floor(N1 / targetChunkLength) when large and targetChunkLength otherwise. -/
theorem claim1_sizing_amended (v : JSString) (target : Nat) :
    ∃ node chunks,
      transformLiteralNodeByChunkLength (.literal (.str v)) firstPassChunkLength
        = .ok (node, chunks) ∧
      chunks.length
        = (if czLength v ≤ 1000 then 0 else ceilDiv (czLength v) 1000 - 2) ∧
      (isLargeString chunks.length = true ↔ 30 ≤ chunks.length) ∧
      minSecondPathChunkLength chunks.length target
        = (if 30 ≤ chunks.length then chunks.length / target else target) := by
  by_cases hg : czLength v ≤ 1000
  · refine ⟨.literal (.str v), [], tf_guard v firstPassChunkLength hg, ?_, ?_, ?_⟩
    · rw [if_pos hg]
      rfl
    · exact isLargeString_iff 0
    · exact minSecondPathChunkLength_eq 0 target
  · push_neg at hg
    obtain ⟨T, chunks, _, heq, _, hlen, _, _, _, _, _, _⟩ :=
      tf_split v firstPassChunkLength (by decide) hg
    refine ⟨T, chunks.drop 2, heq, ?_,
      isLargeString_iff (chunks.drop 2).length,
      minSecondPathChunkLength_eq (chunks.drop 2).length target⟩
    rw [if_neg (by omega), List.length_drop, hlen]
    rfl

/-- Claim C2, counterexample: for the string of 50000 code points "a"
repeated and target chunk length 5, the pass does not compute a chunk count
of 50 with phase-2 chunk length 10: the chunking routine produces 50 chunks,
but the builder shifts two out of the shared array, so the recorded count is
48 and the phase-2 chunk length is floor(48/5) = 9. -/
theorem claim2_counterexample :
    ¬ (∃ node chunks,
        transformLiteralNodeByChunkLength
            (.literal (.str (List.replicate 50000 97))) firstPassChunkLength
          = .ok (node, chunks) ∧
        chunks.length = 50 ∧
        minSecondPathChunkLength chunks.length 5 = 10) := by
  intro ⟨node, cs, heq, hlen50, _⟩
  have hcz : czLength (List.replicate 50000 97) = 50000 := czLength_replicate_97 50000
  obtain ⟨T, chunks, _, heq2, _, hlen, _, _, _, _, _, _⟩ :=
    tf_split (List.replicate 50000 97) firstPassChunkLength (by decide)
      (by rw [hcz]; decide)
  rw [heq2] at heq
  cases heq
  rw [List.length_drop, hlen, hcz] at hlen50
  exact absurd hlen50 (by decide)

/-- Claim C2 (amended): for the string of 50000 code points "a" repeated and
a configured target chunk length of 5, the chunking routine produces 50
phase-1 chunks but the pass records 48 of them (the builder removes the first
two from the shared array); the string is still classified large, and the
phase-2 chunk length is floor(48/5) = 9. -/
theorem claim2_large_sizing_amended :
    ∃ node chunks,
      transformLiteralNodeByChunkLength
          (.literal (.str (List.replicate 50000 97))) firstPassChunkLength
        = .ok (node, chunks) ∧
      chunks.length = 48 ∧
      isLargeString chunks.length = true ∧
      minSecondPathChunkLength chunks.length 5 = 9 := by
  have hcz : czLength (List.replicate 50000 97) = 50000 := czLength_replicate_97 50000
  obtain ⟨T, chunks, _, heq, _, hlen, _, _, _, _, _, _⟩ :=
    tf_split (List.replicate 50000 97) firstPassChunkLength (by decide)
      (by rw [hcz]; decide)
  have hlen48 : (chunks.drop 2).length = 48 := by
    rw [List.length_drop, hlen, hcz]
    decide
  refine ⟨T, chunks.drop 2, heq, hlen48, ?_, ?_⟩
  · rw [hlen48]
    decide
  · rw [hlen48]
    decide

/-- Claim C3: for every string S and chunk length K with 1 <= K < code-point
length of S, the chunking routine returns exactly ceil(L/K) chunks whose
in-order concatenation is S, whose code-point lengths sum to L, none empty,
and each chunk is the concatenation of whole code-point segments of S, so no
chunk boundary falls inside a surrogate pair. -/
theorem claim3_chunk_round_trip (S : JSString) (K : Nat)
    (h1 : 1 ≤ K) (h2 : K < czLength S) :
    ∃ chunks, chunkString S (czLength S) K = .ok chunks ∧
      chunks.length = ceilDiv (czLength S) K ∧
      chunks.flatten = S ∧
      (chunks.map czLength).sum = czLength S ∧
      (∀ c ∈ chunks, c ≠ []) ∧
      chunks = (chunkBlocks (toArray S) K).map List.flatten := by
  obtain ⟨chunks, hcs, hblocks, hlen, hflat, hsum, hle, hne⟩ := chunkString_spec S K h1
  exact ⟨chunks, hcs, hlen, hflat, hsum, hne, hblocks⟩

/-- Claim C3 witness at S = "a😀b" (surrogate pair inside) and K = 2. -/
theorem claim3_witness :
    (1 ≤ 2 ∧ 2 < czLength [97, 0xD83D, 0xDE00, 98]) ∧
    ∃ chunks,
      chunkString [97, 0xD83D, 0xDE00, 98] (czLength [97, 0xD83D, 0xDE00, 98]) 2
        = .ok chunks ∧
      chunks.length = ceilDiv (czLength [97, 0xD83D, 0xDE00, 98]) 2 ∧
      chunks.flatten = [97, 0xD83D, 0xDE00, 98] ∧
      (chunks.map czLength).sum = czLength [97, 0xD83D, 0xDE00, 98] ∧
      (∀ c ∈ chunks, c ≠ []) ∧
      chunks = (chunkBlocks (toArray [97, 0xD83D, 0xDE00, 98]) 2).map List.flatten :=
  ⟨⟨by decide, by decide⟩,
    claim3_chunk_round_trip [97, 0xD83D, 0xDE00, 98] 2 (by decide) (by decide)⟩

/-- Claim C4: for every eligible string literal, whenever the two-phase
transform returns a node (whether or not the large threshold was crossed,
and for any walk depth), fully evaluating that node yields exactly the
original string value. -/
theorem claim4_two_phase_equivalence (v : JSString) (target fuel : Nat)
    (n2 : ESNode) (htarget : 1 ≤ target)
    (h : transformNode fuel (.literal (.str v)) false target = .ok n2) :
    evaluate n2 = some v := by
  simp only [transformNode, Bool.false_eq_true, if_false] at h
  cases htf : transformLiteralNodeByChunkLength (.literal (.str v))
      firstPassChunkLength with
  | thrown m => rw [htf] at h; cases h
  | diverged => rw [htf] at h; cases h
  | ok pair =>
    obtain ⟨n1, cs⟩ := pair
    simp only [htf] at h
    exact replaceEnter_preserves_evaluate
      (minSecondPathChunkLength cs.length target) fuel n1 n2 v h
      (tf_ok_evaluate v firstPassChunkLength n1 cs htf)

/-- Claim C4 witness at v = "abc", target 1, fuel 10. -/
theorem claim4_witness :
    transformNode 10 (.literal (.str [97, 98, 99])) false 1
      = .ok (.binaryExpression "+"
          (.binaryExpression "+" (.literal (.str [97])) (.literal (.str [98])))
          (.literal (.str [99]))) ∧
    evaluate (.binaryExpression "+"
        (.binaryExpression "+" (.literal (.str [97])) (.literal (.str [98])))
        (.literal (.str [99]))) = some [97, 98, 99] :=
  ⟨by decide, claim4_two_phase_equivalence [97, 98, 99] 1 10 _ (by decide) (by decide)⟩

/-- Claim C5: the code loops forever instead of treating a phase-2 chunk
length of 0 as no further split.  For the 32000-code-point string "a"
repeated and splitStringsChunkLength 31, the routine produces 32 phase-1
chunks and records 30 of them (the builder shifts two out), so the string is
large and floor(30 / 31) = 0; the second pass then calls chunkString with
chunk size 0 on every phase-1 chunk, whose loop bound Math.ceil(1000 / 0) is
Infinity, so the transform never returns, for every walk depth. -/
theorem claim5_zero_chunk_length_diverges :
    isLargeString 30 = true ∧
    minSecondPathChunkLength 30 31 = 0 ∧
    ∀ fuel : Nat,
      transformNode fuel (.literal (.str (List.replicate 32000 97))) false 31
        = .diverged := by
  refine ⟨by decide, by decide, ?_⟩
  intro fuel
  have hcz : czLength (List.replicate 32000 97) = 32000 := czLength_replicate_97 32000
  obtain ⟨T, chunks, _, heq, _, hlen, _, _, hne, _, hleaves, _⟩ :=
    tf_split (List.replicate 32000 97) firstPassChunkLength (by decide)
      (by rw [hcz]; decide)
  simp only [transformNode, Bool.false_eq_true, if_false, heq]
  have hlen30 : (chunks.drop 2).length = 30 := by
    rw [List.length_drop, hlen, hcz]
    decide
  rw [hlen30]
  have hmin : minSecondPathChunkLength 30 31 = 0 := by decide
  rw [hmin]
  apply replaceEnter_zero_diverged
  rw [hleaves]
  have hch : chunks ≠ [] := by
    intro hc
    rw [hc] at hlen30
    cases hlen30
  obtain ⟨c, hc⟩ := List.exists_mem_of_ne_nil chunks hch
  exact ⟨c, hc, hne c hc⟩

/-- Claim C6: for every string literal and chunk length at least its
code-point length, splitting returns the original literal unchanged and
reports an empty chunk list (the same routine implements both phases). -/
theorem claim6_noop_guard (v : JSString) (K : Nat) (h : czLength v ≤ K) :
    transformLiteralNodeByChunkLength (.literal (.str v)) K
      = .ok (.literal (.str v), ([] : List JSString)) :=
  tf_guard v K h

/-- Claim C6 witness at v = "ab", K = 2. -/
theorem claim6_witness :
    czLength [97, 98] ≤ 2 ∧
    transformLiteralNodeByChunkLength (.literal (.str [97, 98])) 2
      = .ok (.literal (.str [97, 98]), ([] : List JSString)) :=
  ⟨by decide, claim6_noop_guard [97, 98] 2 (by decide)⟩

/-- Claim C7, counterexample: the second-pass walk does descend into its own
freshly substituted output and re-invokes the splitter on the fresh literal
leaves.  Splitting the two-code-point literal "ab" with chunk length 1
substitutes a concatenation whose two fresh literal leaves are both visited
again: the fresh-literal visit counter is 2, not 0. -/
theorem claim7_counterexample :
    ¬ (∀ (fuel K : Nat) (n n2 : ESNode) (visits resplits : Nat),
        replaceEnterFresh fuel (secondPassVisitor K) false n
          = .ok (n2, visits, resplits) →
        visits = 0) := by
  intro hall
  have h := hall 4 1 (.literal (.str [97, 98]))
    (.binaryExpression "+" (.literal (.str [97])) (.literal (.str [98]))) 2 0
    (by decide)
  exact absurd h (by decide)

/-- Claim C7 (amended): the second-pass walk does re-invoke the splitter on
literal nodes it freshly produced, but every such re-invocation returns the
fresh literal unchanged (each fresh leaf is at most the chunk length long, so
the no-op guard fires): the walk never re-splits its own output, and in
particular terminates with enough fuel. -/
theorem claim7_no_resplit_amended (fuel K : Nat) (n n2 : ESNode)
    (visits resplits : Nat)
    (h : replaceEnterFresh fuel (secondPassVisitor K) false n
      = .ok (n2, visits, resplits)) :
    resplits = 0 :=
  replaceEnterFresh_no_resplit K fuel false n (fun hf => nomatch hf)
    n2 visits resplits h

/-- Claim C7 witness: the same concrete walk as the counterexample has
re-split count 0. -/
theorem claim7_witness :
    replaceEnterFresh 4 (secondPassVisitor 1) false (.literal (.str [97, 98]))
      = .ok (.binaryExpression "+" (.literal (.str [97])) (.literal (.str [98])),
          2, 0) ∧
    (0 : Nat) = 0 :=
  ⟨by decide,
    claim7_no_resplit_amended 4 1 (.literal (.str [97, 98]))
      (.binaryExpression "+" (.literal (.str [97])) (.literal (.str [98]))) 2 0
      (by decide)⟩

/-- Claim C8, counterexample: the "chunk list of size below two leaves the
original literal unchanged" reading fails over the reported chunk list:
splitting the two-code-point literal "ab" at chunk length 1 returns ok with a
changed node together with a reported list the builder has emptied by its two
shift calls (size 0 < 2). -/
theorem claim8_counterexample :
    ¬ (∀ (node n : ESNode) (K : Nat) (cs : List JSString),
        transformLiteralNodeByChunkLength node K = .ok (n, cs) →
        cs.length < 2 → n = node) := by
  intro hall
  have h := hall (.literal (.str [97, 98]))
    (.binaryExpression "+" (.literal (.str [97])) (.literal (.str [98])))
    1 [] (by decide) (by decide)
  exact absurd h (by decide)

/-- Claim C8 (amended): over the chunk list of size n that the chunking
routine produces: if n < 2 (equivalently, the chunk length is at least the
code-point length, so no split is performed) the original literal is returned
unchanged with an empty reported list; if n == 2 the builder yields a single
binary "+" expression, first chunk left, second right, and leaves the shared
array empty; if n > 2 it yields the left-associated fold extending that
two-chunk tree one chunk at a time on the right, preserving order, and the
shared array retains the chunks after the first two; whenever a split is
performed the pass therefore reports the produced chunk list minus its first
two elements. -/
theorem claim8_builder_shape_amended :
    (∀ (v : JSString) (K : Nat), 1 ≤ K → ceilDiv (czLength v) K < 2 →
        transformLiteralNodeByChunkLength (.literal (.str v)) K
          = .ok (.literal (.str v), [])) ∧
    (∀ c1 c2 : JSString, c1 ≠ [] → c2 ≠ [] →
        transformStringChunksToBinaryExpressionNode [c1, c2]
          = .ok (.binaryExpression "+"
              (.literal (.str c1)) (.literal (.str c2)), [])) ∧
    (∀ (c1 c2 : JSString) (rest : List JSString), c1 ≠ [] → c2 ≠ [] →
        transformStringChunksToBinaryExpressionNode (c1 :: c2 :: rest)
          = .ok (rest.foldl
              (fun binaryExpressionNode chunk =>
                ESNode.binaryExpression "+" binaryExpressionNode
                  (ESNode.literal (.str chunk)))
              (ESNode.binaryExpression "+"
                (ESNode.literal (.str c1)) (ESNode.literal (.str c2))),
              rest)) ∧
    (∀ (v : JSString) (K : Nat), 1 ≤ K → K < czLength v →
        ∃ node produced,
          chunkString v (czLength v) K = .ok produced ∧
          transformLiteralNodeByChunkLength (.literal (.str v)) K
            = .ok (node, produced.drop 2)) := by
  refine ⟨?_, ?_, ?_, ?_⟩
  · intro v K hK hsmall
    exact tf_small_produced v K hK hsmall
  · intro c1 c2 h1 h2
    simpa using builder_ok c1 c2 [] h1 h2
  · intro c1 c2 rest h1 h2
    exact builder_ok c1 c2 rest h1 h2
  · intro v K hK hKL
    obtain ⟨T, chunks, hcs, heq, _⟩ := tf_split v K hK hKL
    exact ⟨T, chunks, hcs, heq⟩

/-- Claim C8 witness: concrete instances of all four amended shapes. -/
theorem claim8_witness :
    transformLiteralNodeByChunkLength (.literal (.str [97, 98])) 2
      = .ok (.literal (.str [97, 98]), ([] : List JSString)) ∧
    transformStringChunksToBinaryExpressionNode [[97], [98]]
      = .ok (.binaryExpression "+" (.literal (.str [97])) (.literal (.str [98])),
          ([] : List JSString)) ∧
    transformStringChunksToBinaryExpressionNode [[97], [98], [99]]
      = .ok (.binaryExpression "+"
          (.binaryExpression "+" (.literal (.str [97])) (.literal (.str [98])))
          (.literal (.str [99])), [[99]]) ∧
    ∃ node produced,
      chunkString [97, 98] (czLength [97, 98]) 1 = .ok produced ∧
      transformLiteralNodeByChunkLength (.literal (.str [97, 98])) 1
        = .ok (node, produced.drop 2) :=
  ⟨claim8_builder_shape_amended.1 [97, 98] 2 (by decide) (by decide),
    claim8_builder_shape_amended.2.1 [97] [98] (by decide) (by decide),
    claim8_builder_shape_amended.2.2.1 [97] [98] [[99]] (by decide) (by decide),
    claim8_builder_shape_amended.2.2.2 [97, 98] 1 (by decide) (by decide)⟩

/-- Claim C9: building a concatenation from fewer than two chunks throws (no
degraded result), and under the section 4.2 guards (string literal, chunk
length at least 1 and below the code-point length) the splitter always
returns normally, so the error branch is unreachable there. -/
theorem claim9_error_unreachable :
    (∀ chunks : List JSString, chunks.length < 2 →
        transformStringChunksToBinaryExpressionNode chunks
          = .thrown "First and second chunks values should not be empty") ∧
    (∀ (v : JSString) (K : Nat), 1 ≤ K → K < czLength v →
        ∃ node chunks,
          transformLiteralNodeByChunkLength (.literal (.str v)) K
            = .ok (node, chunks)) := by
  refine ⟨builder_thrown, ?_⟩
  intro v K hK hKL
  obtain ⟨T, chunks, _, heq, _⟩ := tf_split v K hK hKL
  exact ⟨T, chunks.drop 2, heq⟩

/-- Claim C9 witness: the empty chunk list throws; "ab" with chunk length 1
splits normally. -/
theorem claim9_witness :
    transformStringChunksToBinaryExpressionNode ([] : List JSString)
      = .thrown "First and second chunks values should not be empty" ∧
    ∃ node chunks,
      transformLiteralNodeByChunkLength (.literal (.str [97, 98])) 1
        = .ok (node, chunks) :=
  ⟨claim9_error_unreachable.1 [] (by decide),
    claim9_error_unreachable.2 [97, 98] 1 (by decide) (by decide)⟩

end SplitString

namespace Orchestrator

/-- Claim C10: the randomness source is replaced by the seeded deterministic
stream exactly once, before parsing and before any pass runs, and only when
the configured seed is non-zero (with seed 0 it is never replaced);
consequently two runs over identical source text and identical configuration
with the same non-zero seed produce the identical output (generated code and
position map), whatever ambient stream each run started with. -/
theorem claim10_seed_determinism {RNG Tree Output : Type}
    (chance : Int → RNG) (parse : List Nat → Tree)
    (pipeline : Tree → Options → RNG → Tree)
    (generate : Tree → Options → Output)
    (options : Options) (sourceCode : List Nat)
    (ambient1 ambient2 : RNG) (hseed : options.seed ≠ 0) :
    (obfuscate chance parse pipeline generate options sourceCode ambient1).1
      = (obfuscate chance parse pipeline generate options sourceCode ambient2).1 ∧
    (obfuscate chance parse pipeline generate options sourceCode ambient1).2
      = [Event.reseed options.seed, Event.parse, Event.runPipeline,
          Event.generate] ∧
    ∀ (ambient : RNG) (options0 : Options), options0.seed = 0 →
      (obfuscate chance parse pipeline generate options0 sourceCode ambient).2
        = [Event.parse, Event.runPipeline, Event.generate] := by
  refine ⟨?_, ?_, ?_⟩
  · simp [obfuscate, hseed]
  · simp [obfuscate, hseed]
  · intro ambient options0 h0
    simp [obfuscate, h0]

/-- Claim C10 witness: concrete collaborators over natural numbers, seed 1,
two different ambient streams. -/
theorem claim10_witness :
    ((obfuscate (fun s => s.natAbs) (fun l => l.length)
          (fun t _ r => t + r) (fun t _ => t)
          ⟨1, true, 5, false, true⟩ [7, 8] 3).1
        = (obfuscate (fun s => s.natAbs) (fun l => l.length)
          (fun t _ r => t + r) (fun t _ => t)
          ⟨1, true, 5, false, true⟩ [7, 8] 9).1) ∧
    ((obfuscate (fun s => s.natAbs) (fun l => l.length)
          (fun t _ r => t + r) (fun t _ => t)
          ⟨1, true, 5, false, true⟩ [7, 8] 3).2
        = [Event.reseed 1, Event.parse, Event.runPipeline, Event.generate]) ∧
    ∀ (ambient : Nat) (options0 : Options), options0.seed = 0 →
      (obfuscate (fun s => s.natAbs) (fun l => l.length)
          (fun t _ r => t + r) (fun t _ => t)
          options0 [7, 8] ambient).2
        = [Event.parse, Event.runPipeline, Event.generate] :=
  claim10_seed_determinism (fun s => s.natAbs) (fun l => l.length)
    (fun t _ r => t + r) (fun t _ => t)
    ⟨1, true, 5, false, true⟩ [7, 8] 3 9 (by decide)

end Orchestrator
